import Mathlib

/- Verification of the stargate repository core: the permute package
   (UniqueRand, ParallelIterator, RandomParallelIterator), the subnet
   arithmetic (subnetCount64, nthSubnet), the random host draw (randomIP),
   the leak-safe bind-and-verify dialer (createDialerWithSourceIP) and the
   broadcast pre-scan (CheckHostConflicts).

   Modelling conventions, applied throughout:
   - Go machine integers are Nat with an explicit `% 2^w` exactly where Go
     performs fixed-width arithmetic (uint32/uint64 casts, additions and
     shifts); Go `big.Int` values are Int (big.Int.Mod with a positive
     modulus is Euclidean and agrees with Int.emod).
   - Byte-wise operations on 4- or 16-byte addresses (`&`, `|`, `^` applied
     per byte in randomIP and in the broadcast computation) are modelled as
     the same bitwise operations on the address read as a big-endian Nat,
     which is the byte-wise operation transported along the bytes-to-Nat
     bijection.
   - Sources of OS nondeterminism (crypto/rand offsets, the PRNG bytes of
     randomIP, the result of net.Dialer.DialContext) are explicit
     parameters, quantified in the theorems. -/

/-! ## permute package: UniqueRand (src/unnamed/part_007) -/

/-- The multiplier 2654435761 = floor(2^32/phi) of UniqueRand.permute32. -/
def multiplier32 : Nat := 2654435761

/-- The fallback multipliers tried by UniqueRand.permute32 when the main
multiplier is degenerate for the modulus (source: alternativeMultipliers). -/
def alternativeMultipliers : List Nat := [0x9E3779B1, 0x85EBCA6B, 0xC2B2AE3D, 0xA0761D65]

/-- Go UniqueRand.permute32. Arguments are uint32 values (callers pass
values below 2^32); every intermediate product is computed in uint64 and
cannot overflow for such inputs, so plain Nat arithmetic is exact. The Go
loop over the alternative multipliers returns at the first one whose
residue avoids 0 and 1, which is List.find?. -/
def permute32 (x modulus : Nat) : Nat :=
  if modulus ≤ 1 then 0
  else if multiplier32 % modulus = 1 then
    match alternativeMultipliers.find? (fun m => m % modulus != 1 && m % modulus != 0) with
    | some altMultiplier => (x * altMultiplier) % modulus
    | none => (x * 1664525 + 1013904223) % modulus
  else (x * multiplier32) % modulus

/-- Go UniqueRand.permute64: LCG with Knuth constants, computed with
big.Int (exact) intermediate arithmetic. -/
def permute64 (x modulus : Nat) : Nat :=
  if modulus ≤ 1 then 0
  else (x * 6364136223846793005 + 1442695040888963407) % modulus

/-- Go big.Int.IsUint64: the value fits a uint64. -/
def bigIsUint64 (n : Int) : Bool := decide (0 ≤ n ∧ n < 2^64)

/-- The UniqueRand struct. The `mask` field of the Go struct is written at
construction and never read afterwards, so it is omitted. `size32` is the
uint32 truncation of the size, `size64` the uint64 value. -/
structure UniqueRand where
  low : Int
  size : Int
  is32bit : Bool
  is64bit : Bool
  size32 : Nat
  size64 : Nat
  deriving DecidableEq

/-- Go NewUniqueRand(low, high): errors when low > high; otherwise selects
the regime from size = high - low: is32bit when size.IsUint64() and
size.Uint64() <= 1<<32 (note: 2^32 itself is in the 32-bit regime, and
uint32(2^32) truncates to 0), is64bit when size merely fits a uint64. -/
def NewUniqueRand (low high : Int) : Option UniqueRand :=
  if low > high then none
  else
    let size := high - low
    let is32 := bigIsUint64 size && decide (size.toNat ≤ 2^32)
    let is64 := !is32 && bigIsUint64 size
    some { low := low, size := size, is32bit := is32, is64bit := is64,
           size32 := if is32 then size.toNat % 2^32 else 0,
           size64 := if is64 then size.toNat else 0 }

/-- Go UniqueRand.permuteBig: LCG modulo the (arbitrary precision) size,
then the low bound is added. Reached only when size does not fit a uint64,
so the modulus is positive there. -/
def UniqueRand.permuteBig (ur : UniqueRand) (index : Nat) : Int :=
  (((index : Int) * 6364136223846793005 + 1442695040888963407) % ur.size) + ur.low

/-- Go UniqueRand.NextAt(index). Indices are naturals (valid calls use
0 <= index < size); index.Uint64() is index % 2^64 and the further uint32
cast of the 32-bit fast path is index % 2^32. -/
def UniqueRand.NextAt (ur : UniqueRand) (index : Nat) : Int :=
  if ur.is32bit then (permute32 (index % 2^32) ur.size32 : Int) + ur.low
  else if ur.is64bit then (permute64 (index % 2^64) ur.size64 : Int) + ur.low
  else ur.permuteBig index

/-- Go ParallelIterator: a UniqueRand plus the atomic uint64 counter. -/
structure ParallelIterator where
  ur : UniqueRand
  index : Nat
  deriving DecidableEq

/-- Go NewParallelIterator: builds the UniqueRand and starts the counter
at zero. -/
def NewParallelIterator (low high : Int) : Option ParallelIterator :=
  (NewUniqueRand low high).map (fun ur => { ur := ur, index := 0 })

/-- Go ParallelIterator.Next. The counter is a uint64: the fetch-add and
the subtraction of 1 both wrap modulo 2^64. Returns the produced value (if
any) together with the successor state. -/
def ParallelIterator.Next (it : ParallelIterator) : Option Int × ParallelIterator :=
  let newIndex : Nat := (it.index + 1) % 2^64
  let idx : Nat := (newIndex + (2^64 - 1)) % 2^64
  let it' : ParallelIterator := { it with index := newIndex }
  if (idx : Int) ≥ it.ur.size then (none, it')
  else (some (it.ur.NextAt idx), it')

/-- State after n consecutive Next calls. -/
def ParallelIterator.stepN (it : ParallelIterator) : Nat → ParallelIterator
  | 0 => it
  | n + 1 => ((it.stepN n).Next).2

/-- The value (if any) produced by call number n (0-indexed), i.e. by the
Next call made after n earlier calls. -/
def ParallelIterator.resultAt (it : ParallelIterator) (n : Nat) : Option Int :=
  ((it.stepN n).Next).1

/-- Go RandomParallelIterator: a ParallelIterator over the shifted range
plus the two instance offsets and the original range data. -/
structure RandomParallelIterator where
  iter : ParallelIterator
  rangeOffset : Int
  outputOffset : Int
  originalLow : Int
  originalHigh : Int
  size : Int
  deriving DecidableEq

/-- Go NewRandomParallelIterator(low, high). The two crypto/rand offsets
(each drawn from [0, 2^32)) are explicit parameters: the theorems quantify
over them, modelling an entropy source that does not fail. -/
def NewRandomParallelIterator (low high rangeOffset outputOffset : Int) :
    Option RandomParallelIterator :=
  if low > high then none
  else
    (NewParallelIterator (low + rangeOffset) (high + rangeOffset)).map fun it =>
      { iter := it, rangeOffset := rangeOffset, outputOffset := outputOffset,
        originalLow := low, originalHigh := high, size := high - low }

/-- Go RandomParallelIterator.Next: take the underlying value v (in the
shifted range), subtract the range offset, add the output offset, reduce
modulo size (big.Int Euclidean Mod) and add back the original low bound. -/
def RandomParallelIterator.Next (ri : RandomParallelIterator) :
    Option Int × RandomParallelIterator :=
  match ri.iter.Next with
  | (none, it') => (none, { ri with iter := it' })
  | (some v, it') =>
      (some ((((v - ri.rangeOffset) + ri.outputOffset) % ri.size) + ri.originalLow),
       { ri with iter := it' })

/-! ## stargate subnet arithmetic (src/random_dialer.go) -/

/-- A netip.Addr: family flag plus the address read as a big-endian Nat
(below 2^32 for IPv4, below 2^128 for IPv6 in valid states). -/
structure Addr where
  is4 : Bool
  val : Nat
  deriving DecidableEq

/-- Address width in bits: 32 for IPv4, 128 for IPv6. -/
def Addr.bitWidth (a : Addr) : Nat := if a.is4 then 32 else 128

/-- A netip.Prefix: an address and the count of leading prefix bits. -/
structure Pfx where
  addr : Addr
  bits : Nat
  deriving DecidableEq

/-- Go subnetCount64(network, newBits). The Go result type is uint64 and
the final `1 << additionalBits` is a uint64 shift, which yields 0 for any
shift amount of 64 or more; `(1 <<< n) % 2^64` reproduces this for every n. -/
def subnetCount64 (network : Pfx) (newBits : Nat) : Nat :=
  if newBits ≤ network.bits then 0
  else
    let additionalBits := newBits - network.bits
    if network.addr.is4 then
      if additionalBits > 32 then 0 else (1 <<< additionalBits) % 2^64
    else
      if additionalBits > 128 then 0 else (1 <<< additionalBits) % 2^64

/-- Go nthSubnetIPv4: all arithmetic is uint32, so the shifted index and
the sum both wrap modulo 2^32; the result is re-serialized from the uint32.
(The function is only invoked with newBits ≤ 32, where 32 - newBits is the
Go shift amount.) -/
def nthSubnetIPv4 (network : Pfx) (newBits : Nat) (n : Nat) : Option Pfx :=
  if !network.addr.is4 then none
  else
    let baseInt := network.addr.val
    let shift := 32 - newBits
    let subnetInt := (baseInt + (((n % 2^32) <<< shift) % 2^32)) % 2^32
    some { addr := { is4 := true, val := subnetInt }, bits := newBits }

/-- Go nthSubnetIPv6: big.Int shift and add; the result is rejected when
its byte representation exceeds 16 bytes (value ≥ 2^128), otherwise it is
re-serialized into 16 bytes padded on the high side, i.e. it is the value
itself. -/
def nthSubnetIPv6 (network : Pfx) (newBits : Nat) (n : Nat) : Option Pfx :=
  if network.addr.is4 then none
  else
    let shift := 128 - newBits
    let subnetInt := network.addr.val + (n <<< shift)
    if 2^128 ≤ subnetInt then none
    else some { addr := { is4 := false, val := subnetInt }, bits := newBits }

/-- Go nthSubnet(network, newBits, n): bounds checks, then the
family-specific helper. -/
def nthSubnet (network : Pfx) (newBits : Nat) (n : Nat) : Option Pfx :=
  if newBits < network.bits then none
  else
    let count := subnetCount64 network newBits
    if count = 0 ∨ count ≤ n then none
    else if network.addr.is4 then nthSubnetIPv4 network newBits n
    else nthSubnetIPv6 network newBits n

/-- Go net.CIDRMask(bits, width) read as a big-endian Nat: `bits` leading
one bits followed by zero bits. -/
def cidrMask (bits width : Nat) : Nat := (2^bits - 1) <<< (width - bits)

/-- Go net.IPNet, with the IP and the mask read as big-endian Nats. -/
structure IPNet where
  is4 : Bool
  ip : Nat
  mask : Nat
  deriving DecidableEq

/-- Go randomIP(cidr): byte-wise (Mask & IP) | (^Mask & rb) over the
address, on the Nat reading; r is the concatenation of the PRNG bytes, an
arbitrary value below 2^width, and the byte-wise complement of the mask is
xor with 2^width - 1. -/
def randomIP (cidr : IPNet) (r : Nat) : Nat :=
  let width := if cidr.is4 then 32 else 128
  (cidr.mask &&& cidr.ip) ||| (((2^width - 1) ^^^ cidr.mask) &&& r)

/-- Go RandomIPDialer. -/
structure RandomIPDialer where
  iterator : RandomParallelIterator
  pfx : Pfx
  cidrBits : Nat
  subnetCount : Nat
  deriving DecidableEq

/-- Go RandomIPDialer.reset: a fresh RandomParallelIterator over
[0, subnetCount), with fresh entropy passed explicitly. -/
def RandomIPDialer.reset (d : RandomIPDialer) (rOff oOff : Int) : Option RandomIPDialer :=
  (NewRandomParallelIterator 0 (d.subnetCount : Int) rOff oOff).map
    fun it => { d with iterator := it }

/-- Go NewRandomIPIterator(network, cidrBits): errors when the subnet count
is 0, otherwise installs a RandomParallelIterator over [0, subnetCount). -/
def NewRandomIPIterator (network : Pfx) (cidrBits : Nat) (rOff oOff : Int) :
    Option RandomIPDialer :=
  let subnetCount := subnetCount64 network cidrBits
  if subnetCount = 0 then none
  else
    (NewRandomParallelIterator 0 (subnetCount : Int) rOff oOff).map fun it =>
      { iterator := it, pfx := network, cidrBits := cidrBits, subnetCount := subnetCount }

/-- The index-acquisition step of Go RandomIPDialer.NextIP: pull from the
iterator; when it is exhausted, reset and pull once more, ignoring the ok
flag of the second pull exactly as the Go code does (a failed second pull
leaves a nil index, modelled as none). -/
def RandomIPDialer.nextIndex (d : RandomIPDialer) (rOff oOff : Int) :
    Option (Int × RandomIPDialer) :=
  match d.iterator.Next with
  | (some v, it') => some (v, { d with iterator := it' })
  | (none, _) =>
      match d.reset rOff oOff with
      | none => none
      | some d' =>
          match d'.iterator.Next with
          | (some v, it'') => some (v, { d' with iterator := it'' })
          | (none, _) => none

/-- Go RandomIPDialer.NextIP: acquire the next index (auto-resetting once
on exhaustion, with the fresh crypto offsets passed explicitly), look up
the subnet at that index (index.Uint64() is toNat: produced values lie in
[0, subnetCount)), then convert the netip.Prefix into a net.IPNet with
CIDRMask(bits, 32) or CIDRMask(bits, 128) by family. -/
def RandomIPDialer.NextIP (d : RandomIPDialer) (rOff oOff : Int) :
    Option (IPNet × RandomIPDialer) :=
  match d.nextIndex rOff oOff with
  | none => none
  | some (v, d') =>
      match nthSubnet d'.pfx d'.cidrBits v.toNat with
      | none => none
      | some sp =>
          if sp.addr.is4 then
            some ({ is4 := true, ip := sp.addr.val, mask := cidrMask sp.bits 32 }, d')
          else
            some ({ is4 := false, ip := sp.addr.val, mask := cidrMask sp.bits 128 }, d')

/-! ## leak-safe dialer and broadcast pre-scan
    (src/random_dialer.go createDialerWithSourceIP, src/unnamed/part_018) -/

/-- Go net.IP: a byte slice (entries are bytes, below 256 in valid states). -/
structure NetIP where
  bytes : List Nat
  deriving DecidableEq

/-- The 12-byte header of an IPv4-in-IPv6 mapped address (Go v4InV6Prefix). -/
def v4InV6Bytes : List Nat := [0, 0, 0, 0, 0, 0, 0, 0, 0, 0, 0xff, 0xff]

/-- Go net.IP.Equal: byte equality, except that a 4-byte address and the
16-byte IPv4-in-IPv6 mapped form of the same four bytes compare equal. -/
def NetIP.equal (ip x : NetIP) : Bool :=
  if ip.bytes.length = x.bytes.length then ip.bytes == x.bytes
  else if ip.bytes.length = 4 ∧ x.bytes.length = 16 then
    (x.bytes.take 12 == v4InV6Bytes) && (ip.bytes == x.bytes.drop 12)
  else if ip.bytes.length = 16 ∧ x.bytes.length = 4 then
    (ip.bytes.take 12 == v4InV6Bytes) && (x.bytes == ip.bytes.drop 12)
  else false

/-- The key under which an address is stored in / looked up from the
broadcastAddrs map. The Go map is keyed by the String() form; a 16-byte
IPv4-in-IPv6 mapped address prints as the same dotted quad as its 4-byte
form, and otherwise distinct valid addresses print distinct strings, so
the canonical byte list is a faithful model of the string key. -/
def NetIP.key (ip : NetIP) : List Nat :=
  if ip.bytes.length = 16 ∧ ip.bytes.take 12 = v4InV6Bytes then ip.bytes.drop 12 else ip.bytes

/-- The network argument of createDialerWithSourceIP. -/
inductive GoNetwork
  | tcp
  | udp
  | other (name : String)
  deriving DecidableEq

/-- An established connection, with the kernel-reported local address that
conn.LocalAddr() returns after the connect. -/
structure GoConn where
  localIP : NetIP
  deriving DecidableEq

/-- What net.Dialer.DialContext returns for the request: an error, or an
established connection. -/
inductive DialOutcome
  | failed
  | established (conn : GoConn)
  deriving DecidableEq

/-- The possible results of createDialerWithSourceIP. -/
inductive BindResult
  | bindBroadcastError (ip : NetIP)
  | unknownNetworkError
  | transportError
  | bindLeakError (intendedIP actualIP : NetIP)
  | ok (conn : GoConn)
  deriving DecidableEq

/-- Observable side effects of a createDialerWithSourceIP call: whether
DialContext was invoked, and whether the connection was closed. -/
structure DialTrace where
  dialAttempted : Bool
  connClosed : Bool
  deriving DecidableEq

/-- Go createDialerWithSourceIP. The broadcastAddrs map is passed as the
list of its keys, and the OS dial step is abstracted by `outcome`. Mirrors
the Go control flow exactly: broadcast check, network switch, dial,
read-back of the kernel-reported local address, net.IP.Equal verification. -/
def createDialerWithSourceIP (broadcastAddrs : List (List Nat)) (network : GoNetwork)
    (sourceIP : NetIP) (outcome : DialOutcome) : BindResult × DialTrace :=
  if sourceIP.key ∈ broadcastAddrs then
    (BindResult.bindBroadcastError sourceIP, { dialAttempted := false, connClosed := false })
  else
    match network with
    | GoNetwork.other _ =>
        (BindResult.unknownNetworkError, { dialAttempted := false, connClosed := false })
    | _ =>
      match outcome with
      | DialOutcome.failed =>
          (BindResult.transportError, { dialAttempted := true, connClosed := false })
      | DialOutcome.established conn =>
          let actualIP := conn.localIP
          if !(actualIP.equal sourceIP) then
            (BindResult.bindLeakError sourceIP actualIP,
             { dialAttempted := true, connClosed := true })
          else
            (BindResult.ok conn, { dialAttempted := true, connClosed := false })

/-- One interface address as *net.IPNet: the interface IP with its mask,
both byte lists. -/
structure IfaceAddr where
  ip : List Nat
  mask : List Nat
  deriving DecidableEq

/-- Go net.IP.To4: a 4-byte address as is, the low four bytes of a 16-byte
IPv4-in-IPv6 mapped address, nil otherwise. -/
def ipTo4 (b : List Nat) : Option (List Nat) :=
  if b.length = 4 then some b
  else if b.length = 16 ∧ b.take 12 = v4InV6Bytes then some (b.drop 12)
  else none

/-- Go getBroadcastAddressFromAddr: broadcast[i] = ip4[i] | ^mask4[i]
byte-wise; errors (none) for non-IPv4 addresses and non-4-byte masks. -/
def getBroadcastAddressFromAddr (a : IfaceAddr) : Option (List Nat) :=
  match ipTo4 a.ip with
  | none => none
  | some ip4 =>
      if a.mask.length ≠ 4 then none
      else some (List.zipWith (fun x m => x ||| (255 ^^^ m)) ip4 a.mask)

/-- A byte list read as a big-endian Nat. -/
def bytesToNat (l : List Nat) : Nat := l.foldl (fun acc b => acc * 256 + b) 0

/-- netip.Prefix.Contains: the argument has the same family and agrees
with the base address on the leading `bits` bits. -/
def Pfx.containsAddr (p : Pfx) (a : Addr) : Bool :=
  (p.addr.is4 == a.is4)
    && ((a.val >>> (p.addr.bitWidth - p.bits)) == (p.addr.val >>> (p.addr.bitWidth - p.bits)))

/-- One step of the CheckHostConflicts scan over a single interface
address, threading (broadcastAddrs keys, conflict list) and failing (none)
where the Go code returns an error. -/
def scanStep (network : Pfx) (acc : Option (List (List Nat) × List (List Nat)))
    (a : IfaceAddr) : Option (List (List Nat) × List (List Nat)) :=
  match acc with
  | none => none
  | some (reg, conflicts) =>
      if ipTo4 a.ip = none then some (reg, conflicts)
      else
        match getBroadcastAddressFromAddr a with
        | none => none
        | some brd =>
            if network.containsAddr { is4 := true, val := bytesToNat brd } then
              some (reg ++ [brd], conflicts ++ [brd])
            else some (reg, conflicts)

/-- Go CheckHostConflicts: enumerate every address of every interface,
skip non-IPv4 addresses, compute the broadcast address ip | ^mask, and
when it falls inside the configured network record it in the
broadcastAddrs map (first component) and in the returned conflict list
(second component). Errors surface as none. -/
def CheckHostConflicts (network : Pfx) (interfaces : List (List IfaceAddr)) :
    Option (List (List Nat) × List (List Nat)) :=
  interfaces.flatten.foldl (scanStep network) (some ([], []))

/-! ## Fixtures used by several witnesses -/

/-- The prefix 2001:db8::/32 of spec seed scenario 2. -/
def db8 : Pfx := ⟨⟨false, 0x20010db8 * 2^96⟩, 32⟩

/-- The prefix 192.0.2.0/24 of spec seed scenario 1. -/
def net192 : Pfx := ⟨⟨true, 0xC0000200⟩, 24⟩

/-! ## Claim C2 -/

/-- Claim C2 (code-bug exhibit): the map i, NextAt(i) is not a bijection in
every 32-bit regime size. For size = 2654435761 — the multiplier itself, a
prime — the multiplicative hash (x * 2654435761) mod 2654435761 sends every
index to 0, so indices 0 and 1 collide at low + 0 and the multiset of
values cannot equal the range, although size = 2654435761 is a valid
32-bit-regime size larger than 1. -/
theorem c2_permutation_collision :
    (NewUniqueRand 0 2654435761).map (fun ur => (ur.NextAt 0, ur.NextAt 1, ur.size))
      = some (0, 0, 2654435761) := by decide

/-! ## Claim C3 -/

/-- Claim C3 (code-bug exhibit): for the dialer over 2001:db8::/32 with
k = 64 the range size is subnetCount64 = 2^32 exactly; NewUniqueRand then
takes the 32-bit fast path and truncates the size to uint32, giving
size32 = 0, so permute32 returns 0 for every index: with any instance
offsets (here 5 and 7) the first two successful Next() calls of the
RandomParallelIterator over [0, 2^32) return the same value, hence the
first 10 000 next-subnet results are all the same /64 subnet rather than
distinct ones. -/
theorem c3_next_values_repeat :
    subnetCount64 db8 64 = 2^32 ∧
    ((NewRandomParallelIterator 0 (2^32) 5 7).map (fun ri =>
      match ri.Next with
      | (some a, ri2) =>
          match ri2.Next with
          | (some b, _) => some (a, b)
          | (none, _) => none
      | (none, _) => none)) = some (some (7, 7)) := by decide

/-! ## Claim C1 -/

/-- Claim C1 counterexample: with the 4-byte requested source 10.0.0.1 and
the kernel reporting the 16-byte IPv4-in-IPv6 mapped form of 10.0.0.1, the
two addresses are not byte-equal, yet net.IP.Equal accepts them and the
socket IS returned to the caller — no IPBindLeakError is raised, so
"not byte-equal implies close + leak error" is false as stated. -/
theorem c1_counterexample :
    (NetIP.mk [10, 0, 0, 1]).bytes
        ≠ (NetIP.mk [0, 0, 0, 0, 0, 0, 0, 0, 0, 0, 0xff, 0xff, 10, 0, 0, 1]).bytes ∧
    (createDialerWithSourceIP [] GoNetwork.tcp ⟨[10, 0, 0, 1]⟩
        (DialOutcome.established ⟨⟨[0, 0, 0, 0, 0, 0, 0, 0, 0, 0, 0xff, 0xff, 10, 0, 0, 1]⟩⟩)).1
      = BindResult.ok ⟨⟨[0, 0, 0, 0, 0, 0, 0, 0, 0, 0, 0xff, 0xff, 10, 0, 0, 1]⟩⟩ := by
  decide

/-- Claim C1 (amended): when the post-connect verification is reached (the
source is not a registered broadcast address and the network is tcp or
udp), if the kernel-reported local IP is not equal to the requested source
under net.IP.Equal (byte equality up to the IPv4 / IPv4-in-IPv6
identification), the connection is closed and an IPBindLeakError carrying
both the intended and the actual IP is returned; and a socket is returned
only for an established connection whose local IP compares Equal to the
requested source. -/
theorem c1_leak_failsafe_equal (broadcastAddrs : List (List Nat)) (network : GoNetwork)
    (sourceIP : NetIP) (conn : GoConn)
    (hb : sourceIP.key ∉ broadcastAddrs)
    (hn : network = GoNetwork.tcp ∨ network = GoNetwork.udp) :
    (conn.localIP.equal sourceIP = false →
      createDialerWithSourceIP broadcastAddrs network sourceIP (DialOutcome.established conn)
        = (BindResult.bindLeakError sourceIP conn.localIP,
           { dialAttempted := true, connClosed := true })) ∧
    (∀ outcome c,
      (createDialerWithSourceIP broadcastAddrs network sourceIP outcome).1 = BindResult.ok c →
      outcome = DialOutcome.established c ∧ c.localIP.equal sourceIP = true) := by
  constructor
  · intro hne
    rcases hn with h | h <;> subst h <;> simp [createDialerWithSourceIP, hb, hne]
  · intro outcome c hc
    rcases hn with h | h <;> subst h <;>
      cases outcome with
      | failed => simp [createDialerWithSourceIP, hb] at hc
      | established cn =>
        by_cases he : cn.localIP.equal sourceIP = true
        · simp [createDialerWithSourceIP, hb, he] at hc
          exact ⟨by rw [hc], by rw [← hc]; exact he⟩
        · have he' : cn.localIP.equal sourceIP = false := by
            cases hx : cn.localIP.equal sourceIP
            · rfl
            · exact absurd hx he
          simp [createDialerWithSourceIP, hb, he'] at hc


/-- Witness for c1_leak_failsafe_equal at a concrete instance: an empty
registry, tcp, requested source 1.2.3.4 and kernel-reported 5.6.7.8. -/
theorem c1_leak_failsafe_equal_witness :
    ((NetIP.mk [1, 2, 3, 4]).key ∉ ([] : List (List Nat)) ∧
      (GoNetwork.tcp = GoNetwork.tcp ∨ GoNetwork.tcp = GoNetwork.udp)) ∧
    (((GoConn.mk ⟨[5, 6, 7, 8]⟩).localIP.equal ⟨[1, 2, 3, 4]⟩ = false →
      createDialerWithSourceIP [] GoNetwork.tcp ⟨[1, 2, 3, 4]⟩
          (DialOutcome.established ⟨⟨[5, 6, 7, 8]⟩⟩)
        = (BindResult.bindLeakError ⟨[1, 2, 3, 4]⟩ ⟨[5, 6, 7, 8]⟩,
           { dialAttempted := true, connClosed := true })) ∧
    (∀ outcome c,
      (createDialerWithSourceIP [] GoNetwork.tcp ⟨[1, 2, 3, 4]⟩ outcome).1 = BindResult.ok c →
      outcome = DialOutcome.established c ∧ c.localIP.equal ⟨[1, 2, 3, 4]⟩ = true)) :=
  ⟨⟨by decide, Or.inl rfl⟩,
   c1_leak_failsafe_equal [] GoNetwork.tcp ⟨[1, 2, 3, 4]⟩ ⟨⟨[5, 6, 7, 8]⟩⟩
     (by decide) (Or.inl rfl)⟩

/-! ## Claim C4 -/

/-- Claim C4 counterexample: for the IPv6 network 2001:db8::/32 and
newBits = 96 we have p < k and k - p = 64 ≤ 64, so the claim demands
2^64; but the uint64 shift 1 << 64 wraps to 0 and subnetCount64 returns 0. -/
theorem c4_counterexample_pow64 :
    db8.bits < 96 ∧ 96 - db8.bits ≤ 64 ∧ subnetCount64 db8 96 = 0 ∧
      (0 : Nat) ≠ 2^(96 - db8.bits) := by decide

/-- Claim C4 (amended): subnetCount64 returns 2^(k-p) when p < k and
k - p ≤ 32 for IPv4, respectively k - p ≤ 63 for IPv6; it returns 0 when
k ≤ p, when k - p exceeds the addressing width, and for every k - p ≥ 64
(the uint64 result 1 << (k-p) wraps to 0 already at k - p = 64). -/
theorem c4_subnetCount64_cases (network : Pfx) (newBits : Nat) :
    (network.bits < newBits →
      (if network.addr.is4 then newBits - network.bits ≤ 32
        else newBits - network.bits ≤ 63) →
      subnetCount64 network newBits = 2^(newBits - network.bits)) ∧
    (newBits ≤ network.bits → subnetCount64 network newBits = 0) ∧
    (network.addr.is4 = true → 32 < newBits - network.bits →
      subnetCount64 network newBits = 0) ∧
    (network.addr.is4 = false → 64 ≤ newBits - network.bits →
      subnetCount64 network newBits = 0) := by
  unfold subnetCount64
  refine ⟨?_, ?_, ?_, ?_⟩
  · intro hlt hle
    rw [if_neg (by omega)]
    cases h4 : network.addr.is4 with
    | true =>
        rw [h4] at hle
        simp only [if_true] at hle ⊢
        rw [if_neg (by omega), Nat.shiftLeft_eq, one_mul, Nat.mod_eq_of_lt]
        exact Nat.pow_lt_pow_right (by norm_num) (by omega)
    | false =>
        rw [h4] at hle
        simp only [if_false, Bool.false_eq_true] at hle ⊢
        rw [if_neg (by omega), Nat.shiftLeft_eq, one_mul, Nat.mod_eq_of_lt]
        exact Nat.pow_lt_pow_right (by norm_num) (by omega)
  · intro h
    rw [if_pos h]
  · intro h4 hgt
    rw [if_neg (by omega), h4]
    simp only [if_true]
    rw [if_pos (by omega)]
  · intro h4 hge
    rw [if_neg (by omega), h4]
    simp only [Bool.false_eq_true, if_false]
    by_cases h128 : newBits - network.bits > 128
    · rw [if_pos h128]
    · rw [if_neg h128, Nat.shiftLeft_eq, one_mul]
      exact Nat.mod_eq_zero_of_dvd (pow_dvd_pow 2 hge)

/-- Witness for c4_subnetCount64_cases: 192.0.2.0/24 with k = 32 yields
2^8 = 256 subnets. -/
theorem c4_subnetCount64_cases_witness :
    (net192.bits < 32 ∧
      (if net192.addr.is4 then 32 - net192.bits ≤ 32 else 32 - net192.bits ≤ 63)) ∧
    subnetCount64 net192 32 = 2^(32 - net192.bits) :=
  ⟨⟨by decide, by decide⟩, (c4_subnetCount64_cases net192 32).1 (by decide) (by decide)⟩

/-! ## Claim C9 -/

/-- Folding the scan over any list from a failed accumulator stays failed. -/
theorem scanStep_foldl_none (network : Pfx) (l : List IfaceAddr) :
    l.foldl (scanStep network) none = none := by
  induction l with
  | nil => rfl
  | cons a t ih => simpa [scanStep] using ih

/-- Shape of one scan step on a live accumulator: the registry either stays
as it is, or the broadcast address of the current interface address is
appended, and only when it lies inside the configured network. -/
theorem scanStep_some (network : Pfx) (reg0 conf0 reg1 conf1 : List (List Nat)) (a : IfaceAddr)
    (h : scanStep network (some (reg0, conf0)) a = some (reg1, conf1)) :
    reg1 = reg0 ∨ ∃ brd, getBroadcastAddressFromAddr a = some brd ∧
      network.containsAddr { is4 := true, val := bytesToNat brd } = true ∧
      reg1 = reg0 ++ [brd] := by
  simp only [scanStep] at h
  by_cases h4 : ipTo4 a.ip = none
  · rw [if_pos h4] at h
    simp only [Option.some.injEq, Prod.mk.injEq] at h
    exact Or.inl h.1.symm
  · rw [if_neg h4] at h
    cases hb : getBroadcastAddressFromAddr a with
    | none => rw [hb] at h; cases h
    | some brd =>
        rw [hb] at h
        dsimp only at h
        by_cases hc : network.containsAddr { is4 := true, val := bytesToNat brd } = true
        · rw [if_pos hc] at h
          simp only [Option.some.injEq, Prod.mk.injEq] at h
          exact Or.inr ⟨brd, rfl, hc, h.1.symm⟩
        · rw [if_neg hc] at h
          simp only [Option.some.injEq, Prod.mk.injEq] at h
          exact Or.inl h.1.symm

/-- Soundness of the scan fold: every registry entry of a successful scan
was already present initially, or is the broadcast address of one of the
scanned interface addresses and lies inside the configured network. -/
theorem scan_reg_sound (network : Pfx) (l : List IfaceAddr) :
    ∀ (reg0 conf0 reg conf : List (List Nat)),
      l.foldl (scanStep network) (some (reg0, conf0)) = some (reg, conf) →
      ∀ b ∈ reg, b ∈ reg0 ∨
        (network.containsAddr { is4 := true, val := bytesToNat b } = true ∧
         ∃ a ∈ l, getBroadcastAddressFromAddr a = some b) := by
  induction l with
  | nil =>
      intro reg0 conf0 reg conf h b hb
      simp only [List.foldl_nil, Option.some.injEq, Prod.mk.injEq] at h
      exact Or.inl (by rw [h.1]; exact hb)
  | cons a t ih =>
      intro reg0 conf0 reg conf h b hb
      simp only [List.foldl_cons] at h
      cases hs : scanStep network (some (reg0, conf0)) a with
      | none => rw [hs, scanStep_foldl_none] at h; cases h
      | some p =>
          obtain ⟨reg1, conf1⟩ := p
          rw [hs] at h
          rcases ih reg1 conf1 reg conf h b hb with hmem | ⟨hc, a', ha', hbrd⟩
          · rcases scanStep_some network reg0 conf0 reg1 conf1 a hs with
              h0 | ⟨brd, hget, hcont, heq⟩
            · exact Or.inl (h0 ▸ hmem)
            · subst heq
              rcases List.mem_append.mp hmem with h0 | h0
              · exact Or.inl h0
              · have hbb : b = brd := by simpa using h0
                subst hbb
                exact Or.inr ⟨hcont, a, List.mem_cons_self a t, hget⟩
          · exact Or.inr ⟨hc, a', List.mem_cons_of_mem a ha', hbrd⟩

/-- Claim C9: if the requested source IP is in the broadcast registry that
CheckHostConflicts populated, createDialerWithSourceIP fails immediately
with an IPBindBroadcastError — no dial is attempted and no socket is
opened; moreover every such registry entry really is the broadcast address
ip OR NOT mask of a local IPv4 interface address and lies inside the
configured network. -/
theorem c9_broadcast_failfast (network : Pfx) (interfaces : List (List IfaceAddr))
    (reg conflicts : List (List Nat)) (S : NetIP) (netw : GoNetwork) (outcome : DialOutcome)
    (hscan : CheckHostConflicts network interfaces = some (reg, conflicts))
    (hmem : S.key ∈ reg) :
    createDialerWithSourceIP reg netw S outcome
        = (BindResult.bindBroadcastError S, { dialAttempted := false, connClosed := false }) ∧
    network.containsAddr { is4 := true, val := bytesToNat S.key } = true ∧
    ∃ a ∈ interfaces.flatten, getBroadcastAddressFromAddr a = some S.key := by
  refine ⟨?_, ?_⟩
  · unfold createDialerWithSourceIP
    rw [if_pos hmem]
  · have hsound := scan_reg_sound network interfaces.flatten [] [] reg conflicts hscan
      S.key hmem
    rcases hsound with h | h
    · cases h
    · exact h

/-- Witness for c9_broadcast_failfast: a host interface 10.0.0.5/24 with
configured network 10.0.0.0/24 registers the broadcast 10.0.0.255, and a
bind to 10.0.0.255 fails fast. -/
theorem c9_broadcast_failfast_witness :
    (CheckHostConflicts ⟨⟨true, 0x0A000000⟩, 24⟩ [[⟨[10, 0, 0, 5], [255, 255, 255, 0]⟩]]
        = some ([[10, 0, 0, 255]], [[10, 0, 0, 255]]) ∧
      (NetIP.mk [10, 0, 0, 255]).key ∈ [[10, 0, 0, 255]]) ∧
    (createDialerWithSourceIP [[10, 0, 0, 255]] GoNetwork.tcp ⟨[10, 0, 0, 255]⟩
          DialOutcome.failed
        = (BindResult.bindBroadcastError ⟨[10, 0, 0, 255]⟩,
           { dialAttempted := false, connClosed := false }) ∧
      Pfx.containsAddr ⟨⟨true, 0x0A000000⟩, 24⟩
          { is4 := true, val := bytesToNat (NetIP.mk [10, 0, 0, 255]).key } = true ∧
      ∃ a ∈ ([[⟨[10, 0, 0, 5], [255, 255, 255, 0]⟩]] :
          List (List IfaceAddr)).flatten,
        getBroadcastAddressFromAddr a = some (NetIP.mk [10, 0, 0, 255]).key) :=
  ⟨⟨by decide, by decide⟩,
   c9_broadcast_failfast ⟨⟨true, 0x0A000000⟩, 24⟩ [[⟨[10, 0, 0, 5], [255, 255, 255, 0]⟩]]
     [[10, 0, 0, 255]] [[10, 0, 0, 255]] ⟨[10, 0, 0, 255]⟩ GoNetwork.tcp DialOutcome.failed
     (by decide) (by decide)⟩

/-! ## Claim C8 -/

/-- The successor state of a Next call: the uint64 counter advances by one
(wrapping), nothing else changes. -/
theorem ParallelIterator.Next_snd (it : ParallelIterator) :
    (it.Next).2 = { it with index := (it.index + 1) % 2^64 } := by
  simp only [ParallelIterator.Next]
  split <;> rfl

/-- The value of a Next call, for an in-range counter. -/
theorem ParallelIterator.Next_fst (it : ParallelIterator) (h : it.index < 2^64) :
    (it.Next).1
      = if (it.index : Int) ≥ it.ur.size then none else some (it.ur.NextAt it.index) := by
  have hidx : ((it.index + 1) % 2^64 + (2^64 - 1)) % 2^64 = it.index := by omega
  simp only [ParallelIterator.Next]
  rw [hidx]
  split <;> rfl

/-- After n calls the counter holds (start + n) mod 2^64 and the UniqueRand
is untouched. -/
theorem stepN_spec (it : ParallelIterator) (h : it.index < 2^64) (n : Nat) :
    (it.stepN n).index = (it.index + n) % 2^64 ∧ (it.stepN n).ur = it.ur := by
  induction n with
  | zero => exact ⟨(Nat.mod_eq_of_lt h).symm, rfl⟩
  | succ n ih =>
      rw [ParallelIterator.stepN, ParallelIterator.Next_snd]
      refine ⟨?_, ih.2⟩
      show ((it.stepN n).index + 1) % 2^64 = (it.index + (n + 1)) % 2^64
      rw [ih.1, Nat.mod_add_mod]
      ring_nf

/-- Closed form of the value produced by call number n on a fresh
iterator: the call observes counter value n mod 2^64 and produces the
permuted value exactly when that is inside the range. -/
theorem resultAt_spec (ur : UniqueRand) (n : Nat) :
    ParallelIterator.resultAt ⟨ur, 0⟩ n
      = if ((n % 2^64 : Nat) : Int) ≥ ur.size then none
        else some (ur.NextAt (n % 2^64)) := by
  unfold ParallelIterator.resultAt
  have hs := stepN_spec ⟨ur, 0⟩ (by norm_num) n
  have hidx : (ParallelIterator.stepN ⟨ur, 0⟩ n).index = n % 2^64 := by
    rw [hs.1]
    show (0 + n) % 2^64 = n % 2^64
    rw [Nat.zero_add]
  have hlt2 : (ParallelIterator.stepN ⟨ur, 0⟩ n).index < 2^64 := by
    rw [hidx]
    exact Nat.mod_lt _ (by norm_num)
  rw [ParallelIterator.Next_fst _ hlt2, hidx, hs.2]

/-- The UniqueRand over [0, 1) exactly as NewUniqueRand builds it. -/
def urOne : UniqueRand := ⟨0, 1, true, false, 1, 0⟩

/-- Claim C8 counterexample: on the iterator over [0, 1) the counter passes
size = 1 after the first call, yet call number 2^64 produces a value again:
the uint64 counter wraps past 2^64 increments, so exhaustion is NOT sticky
for an arbitrary number of further calls. -/
theorem c8_counterexample_wraparound :
    NewUniqueRand 0 1 = some urOne ∧ 1 ≤ 2^64 ∧
    ParallelIterator.resultAt ⟨urOne, 0⟩ (2^64) = some 0 := by
  refine ⟨by decide, by norm_num, ?_⟩
  rw [resultAt_spec]
  decide

/-- Claim C8 (amended): exhaustion is sticky below the counter wrap: on a
fresh iterator, every call number m with size ≤ m < 2^64 returns none (the
call observes counter value m and produces nothing). Only after 2^64 total
calls does the uint64 counter wrap and the iterator produce values again. -/
theorem c8_sticky_before_wrap (ur : UniqueRand) (m : Nat)
    (hge : (m : Int) ≥ ur.size) (hlt : m < 2^64) :
    ParallelIterator.resultAt ⟨ur, 0⟩ m = none := by
  rw [resultAt_spec, Nat.mod_eq_of_lt hlt, if_pos hge]

/-- Witness for c8_sticky_before_wrap: on the exhausted [0, 1) iterator,
call number 5 returns none. -/
theorem c8_sticky_before_wrap_witness :
    (((5 : Nat) : Int) ≥ urOne.size ∧ 5 < 2^64) ∧
    ParallelIterator.resultAt ⟨urOne, 0⟩ 5 = none :=
  ⟨⟨by decide, by norm_num⟩, c8_sticky_before_wrap urOne 5 (by decide) (by norm_num)⟩

/-! ## Claim C10 -/

/-- subnetCount64 is zero exactly when k ≤ p, or k - p > 32 on IPv4, or
k - p ≥ 64 on IPv6 (the uint64 shift wraps from k - p = 64 on, and the
code rejects k - p > 128 outright). -/
theorem subnetCount64_eq_zero_iff (network : Pfx) (newBits : Nat) :
    subnetCount64 network newBits = 0 ↔
      (newBits ≤ network.bits ∨
       (network.addr.is4 = true ∧ 32 < newBits - network.bits) ∨
       (network.addr.is4 = false ∧ 64 ≤ newBits - network.bits)) := by
  have hpow : ∀ d : Nat, d < 64 → (1 <<< d) % 2^64 = 2^d := fun d hd => by
    rw [Nat.shiftLeft_eq, one_mul, Nat.mod_eq_of_lt (Nat.pow_lt_pow_right (by norm_num) hd)]
  have hpow0 : ∀ d : Nat, 64 ≤ d → (1 <<< d) % 2^64 = 0 := fun d hd => by
    rw [Nat.shiftLeft_eq, one_mul, Nat.mod_eq_zero_of_dvd (pow_dvd_pow 2 hd)]
  unfold subnetCount64
  by_cases h1 : newBits ≤ network.bits
  · simp [h1]
  · rw [if_neg h1]
    cases h4 : network.addr.is4 with
    | true =>
        simp only [if_true, eq_self_iff_true, true_and, Bool.true_eq_false, false_and,
          or_false, false_or]
        by_cases h2 : newBits - network.bits > 32
        · rw [if_pos h2]
          omega
        · rw [if_neg h2, hpow _ (by omega)]
          have := (Nat.two_pow_pos (newBits - network.bits)).ne'
          omega
    | false =>
        simp only [Bool.false_eq_true, if_false, false_and, eq_self_iff_true, true_and,
          or_false, false_or]
        by_cases h2 : newBits - network.bits > 128
        · rw [if_pos h2]
          omega
        · rw [if_neg h2]
          by_cases h3 : 64 ≤ newBits - network.bits
          · rw [hpow0 _ h3]
            omega
          · rw [hpow _ (by omega)]
            have := (Nat.two_pow_pos (newBits - network.bits)).ne'
            omega

/-- NewUniqueRand succeeds on every well-ordered range and records the
bounds. -/
theorem NewUniqueRand_isSome (low high : Int) (h : low ≤ high) :
    ∃ ur, NewUniqueRand low high = some ur ∧ ur.size = high - low ∧ ur.low = low := by
  unfold NewUniqueRand
  rw [if_neg (by omega)]
  exact ⟨_, rfl, rfl, rfl⟩

/-- NewRandomParallelIterator succeeds on every well-ordered range and
records bounds, offsets and a zeroed counter. -/
theorem NewRandomParallelIterator_spec (low high rOff oOff : Int) (h : low ≤ high) :
    ∃ ri, NewRandomParallelIterator low high rOff oOff = some ri ∧
      ri.size = high - low ∧ ri.originalLow = low ∧ ri.rangeOffset = rOff ∧
      ri.outputOffset = oOff ∧ ri.iter.index = 0 ∧ ri.iter.ur.size = high - low ∧
      ri.iter.ur.low = low + rOff := by
  obtain ⟨ur, hur, hsz, hlow⟩ := NewUniqueRand_isSome (low + rOff) (high + rOff) (by omega)
  unfold NewRandomParallelIterator NewParallelIterator
  rw [if_neg (by omega), hur]
  refine ⟨_, rfl, rfl, rfl, rfl, rfl, rfl, ?_, ?_⟩
  · show ur.size = high - low
    rw [hsz]; ring
  · exact hlow

/-- A fresh RandomParallelIterator over a nonempty range produces a value
on its first Next call. -/
theorem RandomParallelIterator_first_Next (ri : RandomParallelIterator)
    (hidx : ri.iter.index = 0) (hpos : (0 : Int) < ri.iter.ur.size) :
    (ri.Next).1
      = some ((((ri.iter.ur.NextAt 0 - ri.rangeOffset) + ri.outputOffset) % ri.size)
          + ri.originalLow) := by
  have hfst : (ri.iter.Next).1 = some (ri.iter.ur.NextAt 0) := by
    rw [ParallelIterator.Next_fst ri.iter (by rw [hidx]; norm_num), hidx]
    rw [if_neg (by push_cast; omega)]
  have h1 : ri.iter.Next = (some (ri.iter.ur.NextAt 0), (ri.iter.Next).2) :=
    Prod.ext hfst rfl
  unfold RandomParallelIterator.Next
  rw [h1]

/-- Claim C10: assuming the entropy source does not fail (the offsets are
given), NewRandomIPIterator errors exactly when subnetCount64 is zero,
i.e. when k ≤ p, or k - p > 32 on IPv4, or k - p ≥ 64 on IPv6 (including
k - p = 64); whenever construction succeeds the subnet count is at least
1, and on any iterator state the index-acquisition step of NextIP — one
pull, plus the single auto-reset pull after exhaustion — always yields a
value. -/
theorem c10_construction_and_reset (network : Pfx) (cidrBits : Nat) (rOff oOff r2 o2 : Int) :
    (NewRandomIPIterator network cidrBits rOff oOff = none ↔
      (cidrBits ≤ network.bits ∨
       (network.addr.is4 = true ∧ 32 < cidrBits - network.bits) ∨
       (network.addr.is4 = false ∧ 64 ≤ cidrBits - network.bits))) ∧
    (∀ d, NewRandomIPIterator network cidrBits rOff oOff = some d →
      1 ≤ d.subnetCount ∧
      ∀ it : RandomParallelIterator,
        RandomIPDialer.nextIndex { d with iterator := it } r2 o2 ≠ none) := by
  have hcnt := subnetCount64_eq_zero_iff network cidrBits
  constructor
  · simp only [NewRandomIPIterator]
    by_cases h0 : subnetCount64 network cidrBits = 0
    · rw [if_pos h0]
      exact ⟨fun _ => hcnt.mp h0, fun _ => rfl⟩
    · rw [if_neg h0]
      obtain ⟨ri, hri, -⟩ :=
        NewRandomParallelIterator_spec 0 (subnetCount64 network cidrBits : Int) rOff oOff
          (Int.ofNat_nonneg _)
      rw [hri]
      simp only [Option.map_some']
      constructor
      · intro h
        cases h
      · intro hc
        exact absurd (hcnt.mpr hc) h0
  · intro d hd
    simp only [NewRandomIPIterator] at hd
    by_cases h0 : subnetCount64 network cidrBits = 0
    · rw [if_pos h0] at hd
      cases hd
    · rw [if_neg h0] at hd
      obtain ⟨ri, hri, -⟩ :=
        NewRandomParallelIterator_spec 0 (subnetCount64 network cidrBits : Int) rOff oOff
          (Int.ofNat_nonneg _)
      rw [hri] at hd
      simp only [Option.map_some', Option.some.injEq] at hd
      have hdc : d.subnetCount = subnetCount64 network cidrBits := by
        rw [← hd]
      have hpos : 1 ≤ d.subnetCount := by
        rw [hdc]
        exact Nat.pos_of_ne_zero h0
      refine ⟨hpos, ?_⟩
      intro it
      unfold RandomIPDialer.nextIndex
      dsimp only
      cases hn : it.Next with
      | mk o it2 =>
        cases o with
        | some v =>
            simp
        | none =>
            dsimp only
            unfold RandomIPDialer.reset
            dsimp only
            obtain ⟨ri2, hri2, hsz2, hlow2, hro2, hoo2, hidx2, hursz2, hurlow2⟩ :=
              NewRandomParallelIterator_spec 0 (d.subnetCount : Int) r2 o2
                (Int.ofNat_nonneg _)
            rw [hri2]
            simp only [Option.map_some']
            have hnext := RandomParallelIterator_first_Next ri2 hidx2
              (by rw [hursz2]; omega)
            cases hn2 : ri2.Next with
            | mk o3 it3 =>
              cases o3 with
              | some w =>
                  simp
              | none =>
                  rw [hn2] at hnext
                  cases hnext

/-- The dialer NewRandomIPIterator builds for 2001:db8::/32 with k = 64 and
zero offsets: subnetCount = 2^32, iterator over [0, 2^32). -/
def dEx10 : RandomIPDialer :=
  ⟨⟨⟨⟨0, 2^32, true, false, 0, 0⟩, 0⟩, 0, 0, 0, 2^32, 2^32⟩, db8, 64, 2^32⟩

/-- Witness for c10_construction_and_reset: construction over 2001:db8::/32
fails at k = 96 (count 0) and succeeds at k = 64, where the subnet count is
positive and index acquisition never fails. -/
theorem c10_construction_and_reset_witness :
    NewRandomIPIterator db8 96 0 0 = none ∧
    (1 ≤ dEx10.subnetCount ∧
      RandomIPDialer.nextIndex { dEx10 with iterator := dEx10.iterator } 0 0 ≠ none) := by
  constructor
  · exact (c10_construction_and_reset db8 96 0 0 0 0).1.mpr (by decide)
  · have h := (c10_construction_and_reset db8 64 0 0 0 0).2 dEx10 (by decide)
    exact ⟨h.1, h.2 dEx10.iterator⟩

/-! ## Claim C7 -/

/-- The per-value output mapping the spec prescribes for the randomized
iterator. Modelled from the spec words for comparison with the code:
low + ((v - r_range - low + r_out) mod size). -/
def specRandomizedNext (low size rangeOffset outputOffset v : Int) : Int :=
  low + ((v - rangeOffset - low + outputOffset) % size)

/-- Claim C7 counterexample: over [10, 14) with both offsets 0, the
underlying iterator produces v = 10, which Next() maps to
10 + ((10 - 0 + 0) mod 4) = 12, while the claimed formula
low + ((v - r_range - low + r_out) mod size) gives 10: the code does not
subtract low inside the modulus. -/
theorem c7_counterexample_low_shift :
    ((NewRandomParallelIterator 10 14 0 0).map (fun ri => (ri.iter.Next.1, ri.Next.1)))
      = some (some 10, some 12) ∧
    specRandomizedNext 10 4 0 0 10 = 10 ∧ (12 : Int) ≠ 10 := by decide

/-- A modular rotation is injective on any aligned half-open interval of
length equal to the modulus. -/
theorem rotation_injOn (L R O N : Int) (_hN : 0 < N) :
    Set.InjOn (fun w : Int => ((w - R + O) % N) + L)
      (Finset.Ico (L + R) (L + R + N)) := by
  intro a ha b hb hab
  simp only [Finset.coe_Ico, Set.mem_Ico] at ha hb
  simp only [add_left_inj] at hab
  have hz : ((a - R + O) - (b - R + O)) % N = 0 :=
    Int.emod_eq_emod_iff_emod_sub_eq_zero.mp hab
  have hdvd : N ∣ a - b := by
    have : (a - R + O) - (b - R + O) = a - b := by ring
    rw [this] at hz
    exact Int.dvd_of_emod_eq_zero hz
  have habs : |a - b| < N := abs_lt.mpr ⟨by omega, by omega⟩
  have := Int.eq_zero_of_abs_lt_dvd hdvd habs
  omega

/-- A modular rotation maps an aligned length-N interval onto [L, L + N). -/
theorem rotation_image (L R O N : Int) (hN : 0 < N) :
    Finset.image (fun w : Int => ((w - R + O) % N) + L) (Finset.Ico (L + R) (L + R + N))
      = Finset.Ico L (L + N) := by
  apply Finset.eq_of_subset_of_card_le
  · intro y hy
    simp only [Finset.mem_image, Finset.mem_Ico] at hy ⊢
    obtain ⟨w, hw, rfl⟩ := hy
    have h1 := Int.emod_nonneg (w - R + O) (ne_of_gt hN)
    have h2 := Int.emod_lt_of_pos (w - R + O) hN
    constructor
    · linarith
    · linarith
  · rw [Finset.card_image_of_injOn (rotation_injOn L R O N hN)]
    have e1 : L + N - L = N := by ring
    have e2 : L + R + N - (L + R) = N := by ring
    rw [Int.card_Ico, Int.card_Ico, e1, e2]

/-- Claim C7 (amended): each value v produced by the underlying permutation
over the shifted range is mapped by Next() to
low + ((v - r_range + r_out) mod size) — without the subtraction of low
inside the modulus that the spec formula contains — and this mapping is a
bijection from the shifted range [low + r_range, low + r_range + size)
onto [low, low + size): over a full pass of the underlying bijection the
outputs are exactly the elements of [low, high), each once. -/
theorem c7_randomized_mapping_bijection (ri : RandomParallelIterator)
    (hsz : 0 < ri.size) (v : Int) (it' : ParallelIterator)
    (h : ri.iter.Next = (some v, it')) :
    ri.Next = (some (((v - ri.rangeOffset + ri.outputOffset) % ri.size) + ri.originalLow),
               { ri with iter := it' }) ∧
    Set.InjOn
      (fun w : Int => ((w - ri.rangeOffset + ri.outputOffset) % ri.size) + ri.originalLow)
      (Finset.Ico (ri.originalLow + ri.rangeOffset)
        (ri.originalLow + ri.rangeOffset + ri.size)) ∧
    Finset.image
      (fun w : Int => ((w - ri.rangeOffset + ri.outputOffset) % ri.size) + ri.originalLow)
      (Finset.Ico (ri.originalLow + ri.rangeOffset)
        (ri.originalLow + ri.rangeOffset + ri.size))
      = Finset.Ico ri.originalLow (ri.originalLow + ri.size) := by
  refine ⟨?_, rotation_injOn _ _ _ _ hsz, rotation_image _ _ _ _ hsz⟩
  simp only [RandomParallelIterator.Next, h]

/-- The UniqueRand and randomized iterator over [10, 14) with both offsets
zero, exactly as NewRandomParallelIterator builds them. -/
def urEx7 : UniqueRand := ⟨10, 4, true, false, 4, 0⟩

/-- Randomized iterator fixture over [10, 14). -/
def riEx7 : RandomParallelIterator := ⟨⟨urEx7, 0⟩, 0, 0, 10, 14, 4⟩

/-- Witness for c7_randomized_mapping_bijection on the [10, 14) fixture,
where the first underlying value is 10 and Next maps it to 12. -/
theorem c7_randomized_mapping_bijection_witness :
    ((0 : Int) < riEx7.size ∧ riEx7.iter.Next = (some 10, ⟨urEx7, 1⟩)) ∧
    (riEx7.Next = (some 12, { riEx7 with iter := ⟨urEx7, 1⟩ }) ∧
     Set.InjOn
       (fun w : Int =>
         ((w - riEx7.rangeOffset + riEx7.outputOffset) % riEx7.size) + riEx7.originalLow)
       (Finset.Ico (riEx7.originalLow + riEx7.rangeOffset)
         (riEx7.originalLow + riEx7.rangeOffset + riEx7.size)) ∧
     Finset.image
       (fun w : Int =>
         ((w - riEx7.rangeOffset + riEx7.outputOffset) % riEx7.size) + riEx7.originalLow)
       (Finset.Ico (riEx7.originalLow + riEx7.rangeOffset)
         (riEx7.originalLow + riEx7.rangeOffset + riEx7.size))
       = Finset.Ico riEx7.originalLow (riEx7.originalLow + riEx7.size)) := by
  refine ⟨⟨by decide, by decide⟩, ?_⟩
  have h := c7_randomized_mapping_bijection riEx7 (by decide) 10 ⟨urEx7, 1⟩ (by decide)
  exact ⟨by rw [h.1]; decide, h.2.1, h.2.2⟩

/-! ## Subnet arithmetic helpers for claims C5 and C6 -/

/-- The k leading mask bits keep a k-bit-aligned address intact. -/
theorem cidrMask_and_eq_self (w k ipv : Nat) (hkw : k ≤ w) (hip : ipv < 2^w)
    (hnorm : ipv % 2^(w - k) = 0) : cidrMask k w &&& ipv = ipv := by
  obtain ⟨q, hq⟩ := Nat.dvd_of_mod_eq_zero hnorm
  subst hq
  have hqlt : q < 2^k := by
    have h2 : 2^(w-k) * q < 2^(w-k) * 2^k := by
      calc 2^(w-k) * q < 2^w := hip
        _ = 2^(w-k) * 2^k := by rw [← pow_add]; congr 1; omega
    exact Nat.lt_of_mul_lt_mul_left h2
  apply Nat.eq_of_testBit_eq
  intro i
  simp only [Nat.testBit_and, cidrMask, Nat.testBit_shiftLeft, Nat.testBit_two_pow_sub_one,
    Nat.testBit_mul_pow_two]
  by_cases hi : w - k ≤ i
  · have hd : decide (i ≥ w - k) = true := by simp [hi]
    simp only [hd, Bool.true_and]
    by_cases hb : q.testBit (i - (w - k)) = true
    · have hik : i - (w - k) < k := by
        by_contra hcon
        push_neg at hcon
        have hge := Nat.testBit_implies_ge hb
        have hpp : (2:Nat)^k ≤ 2^(i - (w-k)) := Nat.pow_le_pow_right (by norm_num) hcon
        omega
      simp [hb, hik]
    · simp only [Bool.not_eq_true] at hb
      simp [hb]
  · simp [hi]

/-- The byte-wise complement of the CIDR mask is the low w - k ones. -/
theorem cidrMask_not (w k : Nat) (hkw : k ≤ w) :
    (2^w - 1) ^^^ cidrMask k w = 2^(w - k) - 1 := by
  apply Nat.eq_of_testBit_eq
  intro i
  simp only [Nat.testBit_xor, cidrMask, Nat.testBit_shiftLeft, Nat.testBit_two_pow_sub_one]
  by_cases h1 : i < w - k
  · have h2 : i < w := by omega
    have h3 : ¬ (w - k ≤ i) := by omega
    simp [h1, h2, h3]
  · by_cases h2 : i < w
    · have h3 : w - k ≤ i := by omega
      have h4 : i - (w-k) < k := by omega
      simp [h1, h2, h3, h4]
    · have h3 : ¬ (i - (w-k) < k) := by omega
      simp [h1, h2, h3]

/-- The byte-wise (mask AND ip) OR (NOT mask AND r) formula on a
k-bit-aligned address inside the mask keeps the network part and fills the
host part with r mod 2^(w-k). -/
theorem maskFill (w k ipv r : Nat) (hkw : k ≤ w) (hip : ipv < 2^w)
    (hnorm : ipv % 2^(w - k) = 0) :
    (cidrMask k w &&& ipv) ||| (((2^w - 1) ^^^ cidrMask k w) &&& r)
      = ipv + r % 2^(w - k) := by
  rw [cidrMask_and_eq_self w k ipv hkw hip hnorm, cidrMask_not w k hkw, Nat.and_comm,
    Nat.and_pow_two_sub_one_eq_mod]
  obtain ⟨q, hq⟩ := Nat.dvd_of_mod_eq_zero hnorm
  subst hq
  exact (Nat.mul_add_lt_is_or (Nat.mod_lt _ (Nat.two_pow_pos _)) q).symm

/-- Any address of the n-th aligned /k block of a normalized /p prefix
stays below 2^w and agrees with the prefix base on the leading p bits. -/
theorem block_in_prefix (w p k base n extra : Nat)
    (hpk : p < k) (hkw : k ≤ w)
    (hbase : base < 2^w) (hnorm : base % 2^(w - p) = 0)
    (hn : n < 2^(k - p)) (hextra : extra < 2^(w - k)) :
    base + n * 2^(w - k) + extra < 2^w ∧
    (base + n * 2^(w - k) + extra) >>> (w - p) = base >>> (w - p) := by
  obtain ⟨q, hq⟩ := Nat.dvd_of_mod_eq_zero hnorm
  have hq2 : q < 2^p := by
    have h2 : 2^(w-p) * q < 2^(w-p) * 2^p := by
      calc 2^(w-p) * q = base := hq.symm
        _ < 2^w := hbase
        _ = 2^(w-p) * 2^p := by rw [← pow_add]; congr 1; omega
    exact Nat.lt_of_mul_lt_mul_left h2
  have hpow : 2^(k-p) * 2^(w-k) = 2^(w-p) := by rw [← pow_add]; congr 1; omega
  have hmul : (n + 1) * 2^(w-k) ≤ 2^(k-p) * 2^(w-k) :=
    Nat.mul_le_mul_right _ hn
  have hsmall : n * 2^(w-k) + extra < 2^(w-p) := by
    rw [add_mul, one_mul] at hmul
    omega
  have h2w : 2^(w-p) * 2^p = 2^w := by rw [← pow_add]; congr 1; omega
  have hq1 : 2^(w-p) * (q + 1) ≤ 2^(w-p) * 2^p := Nat.mul_le_mul_left _ hq2
  have hdist : 2^(w-p) * (q + 1) = 2^(w-p) * q + 2^(w-p) := by ring
  constructor
  · omega
  · rw [Nat.shiftRight_eq_div_pow, Nat.shiftRight_eq_div_pow]
    have hpos : 0 < 2^(w-p) := Nat.two_pow_pos _
    have he : base + n * 2^(w - k) + extra = 2^(w-p) * q + (n * 2^(w-k) + extra) := by omega
    rw [he, Nat.mul_add_div hpos, Nat.div_eq_of_lt hsmall, hq,
      Nat.mul_div_cancel_left _ hpos]
    omega

/-- When subnetCount64 is nonzero it equals 2^(k-p) with p < k, k - p < 64,
and k - p ≤ 32 on IPv4. -/
theorem subnetCount64_pos_val (network : Pfx) (newBits : Nat)
    (h0 : subnetCount64 network newBits ≠ 0) :
    network.bits < newBits ∧ newBits - network.bits < 64 ∧
    (network.addr.is4 = true → newBits - network.bits ≤ 32) ∧
    subnetCount64 network newBits = 2^(newBits - network.bits) := by
  have hz := subnetCount64_eq_zero_iff network newBits
  have hnz := (not_iff_not.mpr hz).mp h0
  push_neg at hnz
  obtain ⟨h1, h2, h3⟩ := hnz
  refine ⟨by omega, ?_, ?_, ?_⟩
  · cases h4 : network.addr.is4 with
    | true => have := h2 h4; omega
    | false => have := h3 h4; omega
  · intro h4; have := h2 h4; omega
  · unfold subnetCount64
    rw [if_neg (by omega)]
    have hlt64 : newBits - network.bits < 64 := by
      cases h4 : network.addr.is4 with
      | true => have := h2 h4; omega
      | false => have := h3 h4; omega
    cases h4 : network.addr.is4 with
    | true =>
        simp only [if_true]
        rw [if_neg (by have := h2 h4; omega), Nat.shiftLeft_eq, one_mul,
          Nat.mod_eq_of_lt (Nat.pow_lt_pow_right (by norm_num) hlt64)]
    | false =>
        simp only [Bool.false_eq_true, if_false]
        rw [if_neg (by omega), Nat.shiftLeft_eq, one_mul,
          Nat.mod_eq_of_lt (Nat.pow_lt_pow_right (by norm_num) hlt64)]

/-- With a normalized valid prefix and an in-range index, nthSubnet returns
exactly the /k prefix starting at base + (n << (w - k)). -/
theorem nthSubnet_eq (network : Pfx) (newBits n : Nat)
    (hval : network.addr.val < 2^network.addr.bitWidth)
    (hnorm : network.addr.val % 2^(network.addr.bitWidth - network.bits) = 0)
    (hkw : newBits ≤ network.addr.bitWidth)
    (hn : n < subnetCount64 network newBits) :
    nthSubnet network newBits n
      = some ⟨⟨network.addr.is4,
          network.addr.val + n * 2^(network.addr.bitWidth - newBits)⟩, newBits⟩ := by
  have h0 : subnetCount64 network newBits ≠ 0 := by omega
  obtain ⟨hpk, hd64, h32, hcount⟩ := subnetCount64_pos_val network newBits h0
  rw [hcount] at hn
  have hblock := block_in_prefix network.addr.bitWidth network.bits newBits
    network.addr.val n 0 hpk hkw hval hnorm hn (Nat.two_pow_pos _)
  simp only [nthSubnet]
  rw [if_neg (by omega), if_neg (by push_neg; exact ⟨h0, by omega⟩)]
  cases h4 : network.addr.is4 with
  | true =>
      have hw : network.addr.bitWidth = 32 := by simp [Addr.bitWidth, h4]
      rw [hw] at hval hnorm hkw hblock ⊢
      simp only [if_true, nthSubnetIPv4, h4, Bool.not_true, Bool.false_eq_true, if_false,
        Option.some.injEq]
      have hn32 : n % 2^32 = n := by
        apply Nat.mod_eq_of_lt
        have : (2:Nat)^(newBits - network.bits) ≤ 2^32 :=
          Nat.pow_le_pow_right (by norm_num) (h32 h4)
        omega
      have hsh : (n % 2^32) <<< (32 - newBits) = n * 2^(32 - newBits) := by
        rw [hn32, Nat.shiftLeft_eq]
      have hlt1 : n * 2^(32 - newBits) < 2^32 := by
        have := hblock.1
        omega
      have hlt2 : network.addr.val + n * 2^(32 - newBits) < 2^32 := by
        have := hblock.1
        omega
      rw [hsh, Nat.mod_eq_of_lt hlt1, Nat.mod_eq_of_lt hlt2]
  | false =>
      have hw : network.addr.bitWidth = 128 := by simp [Addr.bitWidth, h4]
      rw [hw] at hval hnorm hkw hblock ⊢
      simp only [Bool.false_eq_true, if_false, nthSubnetIPv6, h4, Option.some.injEq]
      rw [Nat.shiftLeft_eq]
      rw [if_neg (by have := hblock.1; omega)]

/-- nthSubnet yields nothing from index count on. -/
theorem nthSubnet_none_of_le (network : Pfx) (newBits n : Nat)
    (hn : subnetCount64 network newBits ≤ n) : nthSubnet network newBits n = none := by
  simp only [nthSubnet]
  by_cases h1 : newBits < network.bits
  · rw [if_pos h1]
  · rw [if_neg h1, if_pos (Or.inr hn)]

/-- Characterization of a successful nthSubnet call: the guard proves the
index in range and the result is the aligned /k prefix. -/
theorem nthSubnet_some_spec (network : Pfx) (newBits n : Nat) (sp : Pfx)
    (hval : network.addr.val < 2^network.addr.bitWidth)
    (hnorm : network.addr.val % 2^(network.addr.bitWidth - network.bits) = 0)
    (hkw : newBits ≤ network.addr.bitWidth)
    (h : nthSubnet network newBits n = some sp) :
    network.bits < newBits ∧ n < 2^(newBits - network.bits) ∧
    sp = ⟨⟨network.addr.is4,
          network.addr.val + n * 2^(network.addr.bitWidth - newBits)⟩, newBits⟩ := by
  have hn : n < subnetCount64 network newBits := by
    by_contra hcon
    push_neg at hcon
    rw [nthSubnet_none_of_le network newBits n hcon] at h
    cases h
  have h0 : subnetCount64 network newBits ≠ 0 := by omega
  obtain ⟨hpk, hd64, h32, hcount⟩ := subnetCount64_pos_val network newBits h0
  rw [nthSubnet_eq network newBits n hval hnorm hkw hn] at h
  refine ⟨hpk, by omega, ?_⟩
  injection h with h
  exact h.symm

/-! ## Claim C5 -/

/-- Claim C5 counterexample: with k = p (here 192.0.2.0/24 and k = 24), the
subnet count is 0 and nthSubnet returns not-ok for n = 0 — it does NOT
return P itself as the claim states. -/
theorem c5_counterexample_k_eq_p :
    net192.bits = 24 ∧ nthSubnet net192 24 0 = none ∧
    nthSubnet net192 24 0 ≠ some net192 := by decide

/-- Claim C5 (amended): on a normalized valid prefix, for every n below
count(P, k) nthSubnet returns the /k prefix starting at the integer value
of P's base address plus n << (A - k) (serialization to 4 or 16 bytes is
the identity on the value); for n ≥ count it returns none; and in the edge
case k = p it also returns none, because count is 0 — not P itself. -/
theorem c5_nthSubnet_cases (network : Pfx) (newBits n : Nat)
    (hval : network.addr.val < 2^network.addr.bitWidth)
    (hnorm : network.addr.val % 2^(network.addr.bitWidth - network.bits) = 0)
    (hkw : newBits ≤ network.addr.bitWidth) :
    (n < subnetCount64 network newBits →
      nthSubnet network newBits n
        = some ⟨⟨network.addr.is4,
            network.addr.val + n * 2^(network.addr.bitWidth - newBits)⟩, newBits⟩) ∧
    (subnetCount64 network newBits ≤ n → nthSubnet network newBits n = none) ∧
    (newBits = network.bits → nthSubnet network newBits n = none) := by
  refine ⟨fun hn => nthSubnet_eq network newBits n hval hnorm hkw hn,
    fun hn => nthSubnet_none_of_le network newBits n hn,
    fun he => ?_⟩
  apply nthSubnet_none_of_le
  unfold subnetCount64
  rw [if_pos (by omega)]
  omega

/-- Witness for c5_nthSubnet_cases: the 3rd /26 subnet of 192.0.2.0/24 is
192.0.2.192/26, index 4 is out of range, and k = 24 gives none. -/
theorem c5_nthSubnet_cases_witness :
    (net192.addr.val < 2^net192.addr.bitWidth ∧
      net192.addr.val % 2^(net192.addr.bitWidth - net192.bits) = 0 ∧
      26 ≤ net192.addr.bitWidth ∧ 3 < subnetCount64 net192 26) ∧
    nthSubnet net192 26 3
      = some ⟨⟨net192.addr.is4,
          net192.addr.val + 3 * 2^(net192.addr.bitWidth - 26)⟩, 26⟩ :=
  ⟨⟨by decide, by decide, by decide, by decide⟩,
   (c5_nthSubnet_cases net192 26 3 (by decide) (by decide) (by decide)).1 (by decide)⟩

/-! ## Claim C6 -/

/-- The index-acquisition step never changes the dialer's prefix, inner
width or subnet count. -/
theorem nextIndex_preserves (d : RandomIPDialer) (rOff oOff : Int) (v : Int)
    (d' : RandomIPDialer) (h : d.nextIndex rOff oOff = some (v, d')) :
    d'.pfx = d.pfx ∧ d'.cidrBits = d.cidrBits := by
  unfold RandomIPDialer.nextIndex at h
  rcases hx : d.iterator.Next with ⟨o, it2⟩
  rw [hx] at h
  cases o with
  | some v0 =>
      simp only [Option.some.injEq, Prod.mk.injEq] at h
      obtain ⟨h1, h2⟩ := h
      exact ⟨by rw [← h2], by rw [← h2]⟩
  | none =>
      unfold RandomIPDialer.reset at h
      rcases hr : NewRandomParallelIterator 0 (d.subnetCount : Int) rOff oOff with _ | ri2
      · rw [hr] at h
        simp only [Option.map_none'] at h
        cases h
      · rw [hr] at h
        simp only [Option.map_some'] at h
        rcases hy : ri2.Next with ⟨o2, it3⟩
        rw [hy] at h
        cases o2 with
        | some w =>
            simp only [Option.some.injEq, Prod.mk.injEq] at h
            obtain ⟨h1, h2⟩ := h
            exact ⟨by rw [← h2], by rw [← h2]⟩
        | none => cases h

/-- Any address of the n-th /k block (base plus any host offset below the
block size) is contained in the normalized outer prefix. -/
theorem contains_of_block (P : Pfx) (k n a : Nat)
    (hval : P.addr.val < 2^P.addr.bitWidth)
    (hnorm : P.addr.val % 2^(P.addr.bitWidth - P.bits) = 0)
    (hkw : k ≤ P.addr.bitWidth) (hpk : P.bits < k) (hn : n < 2^(k - P.bits))
    (ha : a = P.addr.val + n * 2^(P.addr.bitWidth - k)) (extra : Nat)
    (hextra : extra < 2^(P.addr.bitWidth - k)) :
    P.containsAddr ⟨P.addr.is4, a + extra⟩ = true := by
  subst ha
  have hb := block_in_prefix P.addr.bitWidth P.bits k P.addr.val n extra hpk hkw hval
    hnorm hn hextra
  simp [Pfx.containsAddr, hb.2]

/-- Unfolding of randomIP on an explicit net.IPNet. -/
theorem randomIP_mk (is4 : Bool) (ipv m0 r : Nat) :
    randomIP ⟨is4, ipv, m0⟩ r
      = (m0 &&& ipv) ||| (((2^(if is4 then 32 else 128) - 1) ^^^ m0) &&& r) := rfl

/-- Claim C6: every subnet NextIP returns on a normalized valid outer
prefix is a /k net.IPNet of the prefix's family whose mask is
CIDRMask(k, A), whose base address is contained in the outer prefix, and
every source IP randomIP draws from it — for every possible sequence of
PRNG bytes r — is also contained in the outer prefix. -/
theorem c6_range_containment (d : RandomIPDialer) (rOff oOff : Int)
    (hval : d.pfx.addr.val < 2^d.pfx.addr.bitWidth)
    (hnorm : d.pfx.addr.val % 2^(d.pfx.addr.bitWidth - d.pfx.bits) = 0)
    (hkw : d.cidrBits ≤ d.pfx.addr.bitWidth)
    (ipnet : IPNet) (d2 : RandomIPDialer)
    (h : d.NextIP rOff oOff = some (ipnet, d2)) :
    ipnet.is4 = d.pfx.addr.is4 ∧
    ipnet.mask = cidrMask d.cidrBits d.pfx.addr.bitWidth ∧
    d.pfx.containsAddr ⟨ipnet.is4, ipnet.ip⟩ = true ∧
    ∀ r : Nat, d.pfx.containsAddr ⟨ipnet.is4, randomIP ipnet r⟩ = true := by
  unfold RandomIPDialer.NextIP at h
  rcases hni : d.nextIndex rOff oOff with _ | ⟨v, d'⟩
  · rw [hni] at h; cases h
  · rw [hni] at h
    dsimp only at h
    obtain ⟨hpfx, hcb⟩ := nextIndex_preserves d rOff oOff v d' hni
    rw [hpfx, hcb] at h
    rcases hsp : nthSubnet d.pfx d.cidrBits v.toNat with _ | sp
    · rw [hsp] at h; cases h
    · rw [hsp] at h
      obtain ⟨hpk, hn, hspe⟩ := nthSubnet_some_spec d.pfx d.cidrBits v.toNat sp hval hnorm
        hkw hsp
      subst hspe
      have hdvd : (2:Nat)^(d.pfx.addr.bitWidth - d.cidrBits) ∣
          d.pfx.addr.val + v.toNat * 2^(d.pfx.addr.bitWidth - d.cidrBits) :=
        dvd_add (dvd_trans (pow_dvd_pow 2 (by omega)) (Nat.dvd_of_mod_eq_zero hnorm))
          (dvd_mul_left _ _)
      have hblock := block_in_prefix d.pfx.addr.bitWidth d.pfx.bits d.cidrBits
        d.pfx.addr.val v.toNat 0 hpk hkw hval hnorm hn (Nat.two_pow_pos _)
      have hiplt : d.pfx.addr.val + v.toNat * 2^(d.pfx.addr.bitWidth - d.cidrBits)
          < 2^d.pfx.addr.bitWidth := by
        have := hblock.1
        omega
      cases h4 : d.pfx.addr.is4 with
      | true =>
          have hw : d.pfx.addr.bitWidth = 32 := by simp [Addr.bitWidth, h4]
          simp only [h4, if_true, Option.some.injEq, Prod.mk.injEq] at h
          obtain ⟨hip, -⟩ := h
          rw [← hip]
          refine ⟨rfl, by rw [hw], ?_, ?_⟩
          · have hc := contains_of_block d.pfx d.cidrBits v.toNat _ hval hnorm hkw hpk hn
              rfl 0 (Nat.two_pow_pos _)
            rw [h4] at hc
            simpa using hc
          · intro r
            have hfill := maskFill d.pfx.addr.bitWidth d.cidrBits
              (d.pfx.addr.val + v.toNat * 2^(d.pfx.addr.bitWidth - d.cidrBits)) r
              hkw hiplt (Nat.mod_eq_zero_of_dvd hdvd)
            have hcont := contains_of_block d.pfx d.cidrBits v.toNat _ hval hnorm hkw hpk hn
              rfl (r % 2^(d.pfx.addr.bitWidth - d.cidrBits)) (Nat.mod_lt _ (Nat.two_pow_pos _))
            rw [h4] at hcont
            rw [randomIP_mk]
            simp only [if_true]
            rw [hw] at hfill ⊢
            rw [hfill]
            rw [hw] at hcont
            exact hcont
      | false =>
          have hw : d.pfx.addr.bitWidth = 128 := by simp [Addr.bitWidth, h4]
          simp only [h4, Bool.false_eq_true, if_false, Option.some.injEq, Prod.mk.injEq] at h
          obtain ⟨hip, -⟩ := h
          rw [← hip]
          refine ⟨rfl, by rw [hw], ?_, ?_⟩
          · have hc := contains_of_block d.pfx d.cidrBits v.toNat _ hval hnorm hkw hpk hn
              rfl 0 (Nat.two_pow_pos _)
            rw [h4] at hc
            simpa using hc
          · intro r
            have hfill := maskFill d.pfx.addr.bitWidth d.cidrBits
              (d.pfx.addr.val + v.toNat * 2^(d.pfx.addr.bitWidth - d.cidrBits)) r
              hkw hiplt (Nat.mod_eq_zero_of_dvd hdvd)
            have hcont := contains_of_block d.pfx d.cidrBits v.toNat _ hval hnorm hkw hpk hn
              rfl (r % 2^(d.pfx.addr.bitWidth - d.cidrBits)) (Nat.mod_lt _ (Nat.two_pow_pos _))
            rw [h4] at hcont
            rw [randomIP_mk]
            simp only [Bool.false_eq_true, if_false]
            rw [hw] at hfill ⊢
            rw [hfill]
            rw [hw] at hcont
            exact hcont

/-- The dialer NewRandomIPIterator builds for 192.0.2.0/24 with k = 26 and
zero offsets. -/
def dEx6 : RandomIPDialer := ⟨⟨⟨⟨0, 4, true, false, 4, 0⟩, 0⟩, 0, 0, 0, 4, 4⟩, net192, 26, 4⟩

/-- The same dialer after one NextIP call (counter advanced to 1). -/
def dEx6' : RandomIPDialer := ⟨⟨⟨⟨0, 4, true, false, 4, 0⟩, 1⟩, 0, 0, 0, 4, 4⟩, net192, 26, 4⟩

/-- The first subnet that dialer yields: 192.0.2.0/26. -/
def ipnetEx6 : IPNet := ⟨true, 0xC0000200, cidrMask 26 32⟩

/-- Witness for c6_range_containment on the 192.0.2.0/24, k = 26 dialer. -/
theorem c6_range_containment_witness :
    (dEx6.pfx.addr.val < 2^dEx6.pfx.addr.bitWidth ∧
      dEx6.pfx.addr.val % 2^(dEx6.pfx.addr.bitWidth - dEx6.pfx.bits) = 0 ∧
      dEx6.cidrBits ≤ dEx6.pfx.addr.bitWidth ∧
      dEx6.NextIP 0 0 = some (ipnetEx6, dEx6')) ∧
    (ipnetEx6.is4 = dEx6.pfx.addr.is4 ∧
     ipnetEx6.mask = cidrMask dEx6.cidrBits dEx6.pfx.addr.bitWidth ∧
     dEx6.pfx.containsAddr ⟨ipnetEx6.is4, ipnetEx6.ip⟩ = true ∧
     ∀ r : Nat, dEx6.pfx.containsAddr ⟨ipnetEx6.is4, randomIP ipnetEx6 r⟩ = true) :=
  ⟨⟨by decide, by decide, by decide, by decide⟩,
   c6_range_containment dEx6 0 0 (by decide) (by decide) (by decide) ipnetEx6 dEx6'
     (by decide)⟩
